import Mathlib

/-! Formal model of the batch-dispatch and path-remapping layer of
`src/uncompyle6/bin/uncompile.py`.  Paths are modelled as lists of
characters; the POSIX path helpers used by the script
(`os.path.commonprefix`, `os.path.dirname`, `os.path.join`, `os.sep`)
are embedded with their character-level CPython semantics. -/

namespace Uncompile

/-- POSIX path separator, `os.sep`. -/
def sep : Char := '/'

/-- A file path, modelled as its list of characters. -/
abbrev Path := List Char

/-- Longest common leading substring of two strings (character level). -/
def lcp2 : Path → Path → Path
  | c :: cs, d :: ds => if c = d then c :: lcp2 cs ds else []
  | _, _ => []

/-- Model of `os.path.commonprefix`: the longest common leading substring of
all the paths in the list (character level, not segment level); the empty
string for an empty list. -/
def commonPrefix : List Path → Path
  | [] => []
  | p :: ps => ps.foldl lcp2 p

/-- Everything up to and including the last separator of `p` (the `head`
local variable of CPython `posixpath.dirname`); empty when `p` has no
separator. -/
def headOf (p : Path) : Path := (p.reverse.dropWhile fun c => c != sep).reverse

/-- Model of `posixpath.dirname`: take everything up to and including the
last separator, then strip trailing separators unless the result consists
only of separators. -/
def dirname (p : Path) : Path :=
  if headOf p ≠ [] ∧ ¬ ((headOf p).all fun c => c == sep) then
    ((headOf p).reverse.dropWhile fun c => c == sep).reverse
  else headOf p

/-- Model of two-argument `posixpath.join`. -/
def joinPath (a b : Path) : Path :=
  if b.head? = some sep then b
  else if a = [] ∨ a.getLast? = some sep then a ++ b
  else a ++ sep :: b

/-- Lines 179-181 of `uncompile.py`: `src_base = os.path.commonprefix(pyc_paths)`,
truncated back to a directory boundary with `os.path.dirname` when it does
not already end in `os.sep`. -/
def srcBase (pyc_paths : List Path) : Path :=
  if (commonPrefix pyc_paths).getLast? = some sep then commonPrefix pyc_paths
  else dirname (commonPrefix pyc_paths)

/-- Lines 179-184 of `uncompile.py` (the PathReducer): compute `src_base`
and, when it is non-empty, strip `len(os.path.join(src_base, ""))`
characters from the front of every path.  Returns `(src_base, relatives)`. -/
def reduce (pyc_paths : List Path) : Path × List Path :=
  if srcBase pyc_paths = [] then (srcBase pyc_paths, pyc_paths)
  else
    (srcBase pyc_paths,
      pyc_paths.map fun f => f.drop (joinPath (srcBase pyc_paths) []).length)

/-- Re-join a relative path onto the computed prefix together with its
trailing separator: `os.path.join(src_base, "") + r`. -/
def rejoin (b r : Path) : Path := joinPath b [] ++ r

/-- The 4-tuple of counters `(tot_files, okay_files, failed_files,
verify_failed_files)` returned by the transformation and summed by the
dispatcher. -/
abbrev Counters := Nat × Nat × Nat × Nat

/-- One value returned by a worker's `fqueue.get()` call in `process_func`
(lines 262-265): a work item, the `None` sentinel, a `KeyboardInterrupt`
delivered at that call, or the `Empty` exception. -/
inductive QueueEvent where
  | item (f : Path)
  | sentinel
  | interrupted
  | empty
deriving DecidableEq

/-- Accumulation loop of `process_func` (lines 262-270): pull events until
the sentinel (`None`) is dequeued or `Empty`/`KeyboardInterrupt` is
raised, adding the counters returned by the per-file transformation `t`
for each work item. -/
def workerLoop (t : Path → Counters) (acc : Counters) : List QueueEvent → Counters
  | [] => acc
  | QueueEvent.item f :: rest => workerLoop t (acc + t f) rest
  | QueueEvent.sentinel :: _ => acc
  | QueueEvent.interrupted :: _ => acc
  | QueueEvent.empty :: _ => acc

/-- Lines 254-274 of `uncompile.py` (`process_func`): run the worker loop
from zeroed counters — `except (Empty, KeyboardInterrupt): pass` treats
interruption and an empty queue as a normal stop, not an error — then
publish the accumulated partial counters to `rqueue` exactly once.  The
returned list is the sequence of publications this worker makes. -/
def process_func (t : Path → Counters) (events : List QueueEvent) : List Counters :=
  [workerLoop t (0, 0, 0, 0) events]

/-- Drain loop of lines 282-296: `rqueue.get(False)` repeatedly, summing
the published 4-tuples, until the channel reports `Empty`; modelled as a
fold over the list of values actually present in the channel (structural
recursion, hence terminating, no matter how many workers published). -/
def drainLoop (acc : Counters) : List Counters → Counters
  | [] => acc
  | c :: rest => drainLoop (acc + c) rest

/-- Modelled from the spec: the serial path hands the whole path list to
the external routine `uncompyle6.main.main`, which is not under `src/`;
per spec section 4.4 serial mode "iterates InputPath/RelativePath pairs
directly, invoking TransformInvoker synchronously, accumulating Counters",
so with a deterministic per-file transformation `t` the aggregate is the
sum of the per-file counters in input order. -/
def serialAggregate (t : Path → Counters) (paths : List Path) : Counters :=
  (paths.map t).sum

/-- Parallel-mode aggregate: every worker runs `process_func` over the work
items it happens to pull from the FIFO queue (its slice of the input,
terminated by its sentinel), and the dispatcher drains all publications. -/
def parallelAggregate (t : Path → Counters) (assignment : List (List Path)) : Counters :=
  drainLoop (0, 0, 0, 0)
    ((assignment.map fun ws =>
      process_func t (ws.map QueueEvent.item ++ [QueueEvent.sentinel])).flatten)

/-- One bounded `fqueue.put` at a time: an element is appended only when
the queue has room (`length < capacity`); `none` signals that the producer
would block on a full queue. -/
def enqueueAll (cap : Nat) :
    List (Option Path) → List (Option Path) → Option (List (Option Path))
  | q, [] => some q
  | q, x :: xs => if q.length < cap then enqueueAll cap (q ++ [x]) xs else none

/-- Lines 244-248 of `uncompile.py`: `fqueue = Queue(len(pyc_paths) + numproc)`,
then every path is enqueued, then exactly one `None` sentinel per worker —
all before any worker process is started (the starts are lines 277-279). -/
def fillWorkQueue (paths : List Path) (numproc : Nat) : Option (List (Option Path)) :=
  enqueueAll (paths.length + numproc) []
    (paths.map some ++ List.replicate numproc none)

/-- Lines 179-188 of `uncompile.py`: the PathReducer runs first; an empty
`pyc_paths` list then writes "No files given" to standard error and calls
`usage()`, which exits with status 1 before any per-file work; otherwise
the serial run processes the relative paths with transformation `t`. -/
def main_bin_core (t : Path → Counters) (pyc_paths : List Path) : Except Nat Counters :=
  if (reduce pyc_paths).2 = [] then Except.error 1
  else Except.ok (serialAggregate t (reduce pyc_paths).2)

/-- Outcome of the external serial `main(...)` call as seen by the
exception dispatch of lines 210-235: a normal return carrying counters, or
one of the three exception kinds the handlers name. -/
inductive SerialEvent where
  | returns (c : Counters)
  | importError
  | keyboardInterrupt
  | verifyCmpError
deriving DecidableEq

/-- Result of the serial dispatch block: fell through normally (with the
counters when `main` returned, without them when `KeyboardInterrupt` was
passed over), exited via `sys.exit`, or re-raised the exception out of
`main_bin`. -/
inductive SerialOutcome where
  | finished (result : Option Counters)
  | exited (code : Int)
  | raised
deriving DecidableEq

/-- Lines 210-235 of `uncompile.py`: `except ImportError` prints and exits
with status 2, `except KeyboardInterrupt` is passed over so the run falls
through cleanly, and `except VerifyCmpError` re-raises the exception. -/
def serial_dispatch : SerialEvent → SerialOutcome
  | SerialEvent.returns c => SerialOutcome.finished (some c)
  | SerialEvent.importError => SerialOutcome.exited 2
  | SerialEvent.keyboardInterrupt => SerialOutcome.finished none
  | SerialEvent.verifyCmpError => SerialOutcome.raised

/-- Abstraction of the filesystem consulted by the `-r` expansion:
`os.path.isdir` and `os.walk` (each walk entry is a pair of a root
directory and the plain file names found in it). -/
structure FileTree where
  isDir : Path → Bool
  walk : Path → List (Path × List Path)

/-- File-name filter of line 172: names ending in `.pyc` or `.pyo`. -/
def isBytecodeName (df : Path) : Bool :=
  ".pyc".toList.isSuffixOf df || ".pyo".toList.isSuffixOf df

/-- Inner loops of lines 170-173 for one directory argument `f`: every
matching file name of every walked root, joined onto its root. -/
def expandOne (fs : FileTree) (f : Path) : List Path :=
  ((fs.walk f).map fun rd =>
    (rd.2.filter isBytecodeName).map fun df => joinPath rd.1 df).flatten

/-- Lines 165-174 of `uncompile.py`: when `-r` was given the file list is
rebuilt from scratch; directory arguments are walked for `.pyc`/`.pyo`
files, and any argument that `os.path.isdir` rejects contributes
nothing. -/
def expand_dirs (fs : FileTree) : List Path → List Path
  | [] => []
  | f :: rest => (if fs.isDir f then expandOne fs f else []) ++ expand_dirs fs rest

theorem lcp2_pre_left : ∀ a b : Path, lcp2 a b <+: a := by
  intro a
  induction a with
  | nil => intro b; cases b <;> exact ⟨[], rfl⟩
  | cons c cs ih =>
    intro b
    cases b with
    | nil => exact ⟨c :: cs, rfl⟩
    | cons d ds =>
      by_cases h : c = d
      · simp only [lcp2, if_pos h]
        obtain ⟨t, ht⟩ := ih ds
        exact ⟨t, by rw [List.cons_append, ht]⟩
      · simp only [lcp2, if_neg h]
        exact ⟨c :: cs, rfl⟩

theorem lcp2_pre_right : ∀ a b : Path, lcp2 a b <+: b := by
  intro a
  induction a with
  | nil => intro b; cases b <;> exact ⟨_, rfl⟩
  | cons c cs ih =>
    intro b
    cases b with
    | nil => exact ⟨[], rfl⟩
    | cons d ds =>
      by_cases h : c = d
      · simp only [lcp2, if_pos h]
        obtain ⟨t, ht⟩ := ih ds
        exact ⟨t, by rw [List.cons_append, ht, h]⟩
      · simp only [lcp2, if_neg h]
        exact ⟨d :: ds, rfl⟩

theorem foldl_lcp2_pre : ∀ (ps : List Path) (a : Path),
    (ps.foldl lcp2 a <+: a) ∧ ∀ x ∈ ps, ps.foldl lcp2 a <+: x := by
  intro ps
  induction ps with
  | nil =>
    intro a
    exact ⟨⟨[], List.append_nil a⟩, by intro x hx; cases hx⟩
  | cons b ps ih =>
    intro a
    obtain ⟨h1, h2⟩ := ih (lcp2 a b)
    refine ⟨h1.trans (lcp2_pre_left a b), ?_⟩
    intro x hx
    rcases List.mem_cons.mp hx with rfl | hx
    · exact h1.trans (lcp2_pre_right a x)
    · exact h2 x hx

theorem commonPrefix_pre {paths : List Path} {x : Path} (hx : x ∈ paths) :
    commonPrefix paths <+: x := by
  cases paths with
  | nil => cases hx
  | cons p ps =>
    rcases List.mem_cons.mp hx with rfl | hx
    · exact (foldl_lcp2_pre ps x).1
    · exact (foldl_lcp2_pre ps p).2 x hx

theorem dropWhile_head_not (q : Char → Bool) :
    ∀ (l : Path) (c : Char) (t : Path), l.dropWhile q = c :: t → q c = false := by
  intro l
  induction l with
  | nil => intro c t h; simp [List.dropWhile] at h
  | cons a l ih =>
    intro c t h
    rw [List.dropWhile_cons] at h
    by_cases ha : q a = true
    · rw [if_pos ha] at h; exact ih c t h
    · rw [if_neg ha] at h
      cases h
      simpa using ha

theorem dropWhile_ne_nil_of_mem (q : Char → Bool) :
    ∀ (l : Path), (∃ x ∈ l, q x = false) → l.dropWhile q ≠ [] := by
  intro l
  induction l with
  | nil => rintro ⟨x, hx, _⟩; cases hx
  | cons a l ih =>
    rintro ⟨x, hx, hqx⟩
    rw [List.dropWhile_cons]
    by_cases ha : q a = true
    · rw [if_pos ha]
      apply ih
      rcases List.mem_cons.mp hx with rfl | hx
      · rw [ha] at hqx; cases hqx
      · exact ⟨x, hx, hqx⟩
    · rw [if_neg ha]; simp

theorem sep_cons_dropWhile_suf :
    ∀ t : Path, sep :: t.dropWhile (fun c => c == sep) <:+ sep :: t := by
  intro t
  induction t with
  | nil => exact List.suffix_refl _
  | cons a t ih =>
    by_cases ha : a = sep
    · subst ha
      have h2 : (sep :: t).dropWhile (fun c => c == sep) = t.dropWhile (fun c => c == sep) := by
        rw [List.dropWhile_cons, if_pos (by simp)]
      rw [h2]
      exact ih.trans (List.suffix_cons sep (sep :: t))
    · rw [List.dropWhile_cons, if_neg (by simp [ha])]

theorem rev_pre_of_suf_rev {l p : Path} (h : l <:+ p.reverse) : l.reverse <+: p := by
  obtain ⟨u, hu⟩ := h
  refine ⟨u.reverse, ?_⟩
  have hp : p = (u ++ l).reverse := by rw [hu, List.reverse_reverse]
  rw [hp, List.reverse_append]

theorem headOf_pre_self (p : Path) : headOf p <+: p := by
  apply rev_pre_of_suf_rev
  exact ⟨p.reverse.takeWhile fun c => c != sep,
    List.takeWhile_append_dropWhile (fun c => c != sep) p.reverse⟩

theorem headOf_last (p : Path) (h : headOf p ≠ []) : (headOf p).getLast? = some sep := by
  rw [headOf, List.getLast?_reverse]
  rw [headOf] at h
  rcases hd : p.reverse.dropWhile (fun c => c != sep) with _ | ⟨c, t⟩
  · rw [hd] at h; simp at h
  · have := dropWhile_head_not _ _ _ _ hd
    have hc : c = sep := by simpa using this
    simp [hc]

theorem joinPath_nil_of_last_sep (a : Path) (h : a.getLast? = some sep) :
    joinPath a [] = a := by
  rw [joinPath, if_neg (by simp), if_pos (Or.inr h), List.append_nil]

theorem joinPath_nil_of_last_ne (a : Path) (ha : a ≠ []) (h : a.getLast? ≠ some sep) :
    joinPath a [] = a ++ [sep] := by
  rw [joinPath, if_neg (by simp), if_neg (not_or.mpr ⟨ha, h⟩)]

theorem joinPath_nil_last (a : Path) (ha : a ≠ []) :
    (joinPath a []).getLast? = some sep := by
  by_cases h : a.getLast? = some sep
  · rw [joinPath_nil_of_last_sep a h]; exact h
  · rw [joinPath_nil_of_last_ne a ha h, List.getLast?_concat]

theorem joinPath_dirname_pre (p : Path) (hd : dirname p ≠ []) :
    joinPath (dirname p) [] <+: p := by
  rw [dirname] at hd ⊢
  by_cases hc : headOf p ≠ [] ∧ ¬ ((headOf p).all fun c => c == sep)
  · rw [if_pos hc] at hd ⊢
    have hrev : (headOf p).reverse = p.reverse.dropWhile fun c => c != sep := by
      rw [headOf, List.reverse_reverse]
    rw [hrev] at hd ⊢
    rcases hh : p.reverse.dropWhile (fun c => c != sep) with _ | ⟨c, t⟩
    · exact absurd (by rw [headOf, hh, List.reverse_nil]) hc.1
    · have hcsep : c = sep := by simpa using dropWhile_head_not _ _ _ _ hh
      subst hcsep
      have h2 : (sep :: t).dropWhile (fun c => c == sep) = t.dropWhile (fun c => c == sep) := by
        rw [List.dropWhile_cons, if_pos (by simp)]
      rw [hh, h2] at hd
      rw [h2]
      rcases hdw : t.dropWhile (fun c => c == sep) with _ | ⟨d, t2⟩
      · rw [hdw] at hd; simp at hd
      · have hdne : d ≠ sep := by simpa using dropWhile_head_not _ _ _ _ hdw
        have hne : (d :: t2).reverse ≠ [] := by simp
        rw [joinPath_nil_of_last_ne _ hne (by rw [List.getLast?_reverse]; simp [hdne])]
        have hrc : (d :: t2).reverse ++ [sep] = (sep :: d :: t2).reverse := by
          simp
        rw [hrc]
        apply rev_pre_of_suf_rev
        have hs1 : sep :: d :: t2 <:+ sep :: t := by
          rw [← hdw]; exact sep_cons_dropWhile_suf t
        have hs2 : sep :: t <:+ p.reverse := by
          rw [← hh]
          exact ⟨p.reverse.takeWhile fun c => c != sep,
            List.takeWhile_append_dropWhile (fun c => c != sep) p.reverse⟩
        exact hs1.trans hs2
  · rw [if_neg hc] at hd ⊢
    rw [joinPath_nil_of_last_sep _ (headOf_last p hd)]
    exact headOf_pre_self p

theorem srcBase_join_pre {paths : List Path} (hsb : srcBase paths ≠ []) :
    ∀ f ∈ paths, joinPath (srcBase paths) [] <+: f := by
  intro f hf
  rw [srcBase] at hsb ⊢
  by_cases hc : (commonPrefix paths).getLast? = some sep
  · rw [if_pos hc] at hsb ⊢
    rw [joinPath_nil_of_last_sep _ hc]
    exact commonPrefix_pre hf
  · rw [if_neg hc] at hsb ⊢
    exact (joinPath_dirname_pre _ hsb).trans (commonPrefix_pre hf)

theorem append_drop_of_pre {q f : Path} (h : q <+: f) : q ++ f.drop q.length = f := by
  obtain ⟨t, rfl⟩ := h
  rw [List.drop_left]

theorem map_eq_self {f : Path → Path} : ∀ {l : List Path}, (∀ x ∈ l, f x = x) → l.map f = l := by
  intro l
  induction l with
  | nil => intro _; rfl
  | cons a l ih =>
    intro h
    rw [List.map_cons, h a (List.mem_cons_self a l),
      ih fun x hx => h x (List.mem_cons_of_mem a hx)]

theorem rejoin_nil (r : Path) : rejoin [] r = r := by
  simp [rejoin, joinPath]

/-- Claim C1: for every non-empty sequence of input paths, applying the
PathReducer (`reduce`: commonprefix computation, directory-boundary
truncation, prefix stripping) and then re-joining each resulting relative
path onto the computed prefix with its trailing separator reproduces the
original input path sequence exactly, element for element and in order. -/
theorem reduce_roundtrip (paths : List Path) (h : paths ≠ []) :
    ((reduce paths).2).map (rejoin (reduce paths).1) = paths := by
  by_cases hsb : srcBase paths = []
  · rw [reduce, if_pos hsb]
    show paths.map (rejoin (srcBase paths)) = paths
    rw [hsb]
    exact map_eq_self fun x _ => rejoin_nil x
  · rw [reduce, if_neg hsb]
    show (paths.map fun f => f.drop (joinPath (srcBase paths) []).length).map
      (rejoin (srcBase paths)) = paths
    rw [List.map_map]
    apply map_eq_self
    intro f hf
    exact append_drop_of_pre (srcBase_join_pre hsb f hf)

/-- Witness for C1: the round trip evaluated at the concrete input pair
from the script's own comment about `some/classes` and `some/cmds`. -/
theorem reduce_roundtrip_wit :
    ((reduce ["some/classes/a.pyc".toList, "some/cmds/b.pyc".toList]).2).map
      (rejoin (reduce ["some/classes/a.pyc".toList, "some/cmds/b.pyc".toList]).1)
      = ["some/classes/a.pyc".toList, "some/cmds/b.pyc".toList] :=
  reduce_roundtrip _ (List.cons_ne_nil _ _)

/-- Claim C2: for the inputs `some/classes/a.pyc` and `some/cmds/b.pyc`,
the raw character-level common prefix is `some/c`, but the PathReducer
truncates it to the directory component: the stored base is `some`, the
prefix actually stripped (base plus trailing separator) is `some/`, and the
relative paths are `classes/a.pyc` and `cmds/b.pyc` rather than
`lasses/a.pyc` and `mds/b.pyc`. -/
theorem reduce_some_classes :
    commonPrefix ["some/classes/a.pyc".toList, "some/cmds/b.pyc".toList] = "some/c".toList ∧
    (reduce ["some/classes/a.pyc".toList, "some/cmds/b.pyc".toList]).1 = "some".toList ∧
    joinPath (reduce ["some/classes/a.pyc".toList, "some/cmds/b.pyc".toList]).1 []
      = "some/".toList ∧
    (reduce ["some/classes/a.pyc".toList, "some/cmds/b.pyc".toList]).2
      = ["classes/a.pyc".toList, "cmds/b.pyc".toList] ∧
    (reduce ["some/classes/a.pyc".toList, "some/cmds/b.pyc".toList]).2
      ≠ ["lasses/a.pyc".toList, "mds/b.pyc".toList] := by
  decide

theorem srcBase_single (p : Path) :
    srcBase [p] = if p.getLast? = some sep then p else dirname p := rfl

/-- Counterexample to claim C6 as stated: for the single input path
`some/a.pyc` the PathReducer produces the relative path `a.pyc` (the
basename) and the prefix `some`; the relative path is not the empty
string. -/
theorem reduce_single_cx :
    (reduce ["some/a.pyc".toList]).2 = ["a.pyc".toList] ∧
    (reduce ["some/a.pyc".toList]).1 = "some".toList ∧
    "a.pyc".toList ≠ ([] : Path) := by decide

/-- Claim C6 (amended): for a sequence containing exactly one input path,
the PathReducer produces exactly one relative path; the path splits as the
computed prefix with its trailing separator followed by that relative path,
and the relative path is the empty string exactly when the input path is
empty or itself ends with the separator (for example `some/a.pyc` yields
prefix `some` and relative `a.pyc`, not the empty string). -/
theorem reduce_single (p : Path) :
    ∃ r, (reduce [p]).2 = [r] ∧ rejoin (reduce [p]).1 r = p ∧
      (r = [] ↔ p = [] ∨ p.getLast? = some sep) := by
  by_cases hsb : srcBase [p] = []
  · rw [reduce, if_pos hsb]
    refine ⟨p, rfl, ?_, ?_⟩
    · show rejoin (srcBase [p]) p = p
      rw [hsb]; exact rejoin_nil p
    · constructor
      · rintro rfl; exact Or.inl rfl
      · rintro (rfl | hlast)
        · rfl
        · have hsp : srcBase [p] = p := by rw [srcBase_single, if_pos hlast]
          rw [hsp] at hsb
          exact hsb
  · rw [reduce, if_neg hsb]
    have hpre := srcBase_join_pre hsb p (List.mem_cons_self p [])
    refine ⟨p.drop (joinPath (srcBase [p]) []).length, rfl, ?_, ?_⟩
    · exact append_drop_of_pre hpre
    · constructor
      · intro hr
        have hap := append_drop_of_pre hpre
        rw [hr, List.append_nil] at hap
        right
        rw [← hap]
        exact joinPath_nil_last _ hsb
      · rintro (rfl | hlast)
        · exact absurd (by decide) hsb
        · have hsp : srcBase [p] = p := by rw [srcBase_single, if_pos hlast]
          rw [hsp, joinPath_nil_of_last_sep p hlast]
          exact List.drop_length p

theorem drainLoop_eq_sum : ∀ (pubs : List Counters) (acc : Counters),
    drainLoop acc pubs = acc + pubs.sum := by
  intro pubs
  induction pubs with
  | nil => intro acc; simp [drainLoop]
  | cons c rest ih =>
    intro acc
    show drainLoop (acc + c) rest = acc + (c :: rest).sum
    rw [ih, List.sum_cons, add_assoc]

theorem workerLoop_items (t : Path → Counters) :
    ∀ (pre : List Path) (acc : Counters) (ev : QueueEvent) (post : List QueueEvent),
      (∀ f, ev ≠ QueueEvent.item f) →
      workerLoop t acc (pre.map QueueEvent.item ++ ev :: post)
        = acc + (pre.map t).sum := by
  intro pre
  induction pre with
  | nil =>
    intro acc ev post hev
    cases ev with
    | item f => exact absurd rfl (hev f)
    | sentinel => simp [workerLoop]
    | interrupted => simp [workerLoop]
    | empty => simp [workerLoop]
  | cons f fs ih =>
    intro acc ev post hev
    show workerLoop t (acc + t f) (fs.map QueueEvent.item ++ ev :: post)
      = acc + ((f :: fs).map t).sum
    rw [ih (acc + t f) ev post hev, List.map_cons, List.sum_cons, add_assoc]

theorem published_eq (t : Path → Counters) : ∀ (assignment : List (List Path)),
    ((assignment.map fun ws =>
      process_func t (ws.map QueueEvent.item ++ [QueueEvent.sentinel])).flatten)
      = assignment.map fun ws => (ws.map t).sum := by
  intro assignment
  induction assignment with
  | nil => rfl
  | cons ws rest ih =>
    rw [List.map_cons, List.flatten_cons, ih, List.map_cons, process_func,
      workerLoop_items t ws (0, 0, 0, 0) QueueEvent.sentinel [] (by intro f h; cases h)]
    have h0 : ((0, 0, 0, 0) : Counters) = 0 := rfl
    rw [h0, zero_add, List.singleton_append]

/-- Claim C3: for a fixed input path set and a deterministic per-file
transformation `t`, the aggregate 4-tuple of serial mode equals the
aggregate of parallel mode for every distribution of the work items among
the workers — any `assignment` whose items are, as a multiset, exactly the
input paths — regardless of interleaving. -/
theorem serial_parallel_agree (t : Path → Counters) (paths : List Path)
    (assignment : List (List Path)) (h : assignment.flatten.Perm paths) :
    parallelAggregate t assignment = serialAggregate t paths := by
  rw [parallelAggregate, published_eq, drainLoop_eq_sum]
  have h0 : ((0, 0, 0, 0) : Counters) = 0 := rfl
  rw [h0, zero_add, serialAggregate]
  have hs : ∀ asg : List (List Path),
      (asg.map fun ws => (ws.map t).sum).sum = (asg.flatten.map t).sum := by
    intro asg
    induction asg with
    | nil => rfl
    | cons ws rest ih =>
      rw [List.map_cons, List.sum_cons, ih, List.flatten_cons, List.map_append,
        List.sum_append]
  rw [hs]
  exact List.Perm.sum_eq (List.Perm.map t h)

/-- Witness for C3: two files distributed in reverse order over two
workers give the same aggregate as the serial run over the input order. -/
theorem serial_parallel_agree_wit :
    ([["b.pyc".toList], ["a.pyc".toList]].flatten.Perm
      ["a.pyc".toList, "b.pyc".toList]) ∧
    parallelAggregate (fun _ => (1, 1, 0, 0)) [["b.pyc".toList], ["a.pyc".toList]]
      = serialAggregate (fun _ => (1, 1, 0, 0)) ["a.pyc".toList, "b.pyc".toList] :=
  ⟨by decide, serial_parallel_agree _ _ _ (by decide)⟩

/-- Claim C4: the dispatcher's drain loop terminates without requiring one
publication per worker — it is a structurally terminating fold that stops
as soon as the channel reports empty — and when some of the `numproc`
workers died before publishing (strictly fewer publications than workers)
the reported aggregate is exactly the sum of the 4-tuples actually
published. -/
theorem drain_tolerates_missing (pubs : List Counters) (numproc : Nat)
    (h : pubs.length < numproc) :
    drainLoop (0, 0, 0, 0) pubs = pubs.sum := by
  have h0 : ((0, 0, 0, 0) : Counters) = 0 := rfl
  rw [drainLoop_eq_sum, h0, zero_add]

/-- Witness for C4: with two workers of which only one published
`(3, 2, 1, 0)`, the drain still returns and reports exactly that tuple. -/
theorem drain_tolerates_missing_wit :
    ([((3 : Nat), (2 : Nat), (1 : Nat), (0 : Nat))].length < 2) ∧
    drainLoop (0, 0, 0, 0) [((3 : Nat), (2 : Nat), (1 : Nat), (0 : Nat))]
      = ((3 : Nat), (2 : Nat), (1 : Nat), (0 : Nat)) :=
  ⟨by decide,
    (drain_tolerates_missing [((3 : Nat), (2 : Nat), (1 : Nat), (0 : Nat))] 2
      (by decide)).trans (by decide)⟩

/-- Claim C7: a worker that observes a cancellation signal
(`KeyboardInterrupt`) or an empty-queue condition (`Empty`) while
processing stops pulling new work (whatever sits behind the event is never
consumed), treats the event as a normal stop rather than an error, and
still publishes to the result channel — exactly once — the partial
counters it accumulated up to that point. -/
theorem worker_cancel_publishes (t : Path → Counters) (pre : List Path)
    (post : List QueueEvent) (ev : QueueEvent)
    (hev : ev = QueueEvent.interrupted ∨ ev = QueueEvent.empty) :
    process_func t (pre.map QueueEvent.item ++ ev :: post) = [(pre.map t).sum] := by
  rw [process_func]
  have hne : ∀ f, ev ≠ QueueEvent.item f := by
    rcases hev with rfl | rfl <;> intro f h <;> cases h
  rw [workerLoop_items t pre (0, 0, 0, 0) ev post hne]
  have h0 : ((0, 0, 0, 0) : Counters) = 0 := rfl
  rw [h0, zero_add]

/-- Witness for C7: a worker interrupted after one file publishes exactly
`(1, 1, 0, 0)` once, ignoring the queue content behind the interrupt. -/
theorem worker_cancel_publishes_wit :
    process_func (fun _ => (1, 1, 0, 0)) (["a.pyc".toList].map QueueEvent.item
      ++ QueueEvent.interrupted :: [QueueEvent.item "b.pyc".toList])
      = [((1 : Nat), (1 : Nat), (0 : Nat), (0 : Nat))] :=
  (worker_cancel_publishes (fun _ => (1, 1, 0, 0)) ["a.pyc".toList]
    [QueueEvent.item "b.pyc".toList] QueueEvent.interrupted (Or.inl rfl)).trans
    (by decide)

theorem enqueueAll_ok (cap : Nat) :
    ∀ (xs q : List (Option Path)), q.length + xs.length ≤ cap →
      enqueueAll cap q xs = some (q ++ xs) := by
  intro xs
  induction xs with
  | nil => intro q h; simp [enqueueAll]
  | cons x xs ih =>
    intro q h
    have hlt : q.length < cap := by
      rw [List.length_cons] at h; omega
    have h2 : (q ++ [x]).length + xs.length ≤ cap := by
      rw [List.length_append, List.length_singleton]
      rw [List.length_cons] at h
      omega
    show (if q.length < cap then enqueueAll cap (q ++ [x]) xs else none)
      = some (q ++ x :: xs)
    rw [if_pos hlt, ih (q ++ [x]) h2, List.append_assoc, List.singleton_append]

/-- Claim C5: the work queue is created with capacity
`len(pyc_paths) + numproc`; before any worker starts, the producer
enqueues every input path first and then exactly one sentinel per worker;
the number of enqueued items equals the capacity, and every single `put`
succeeds without blocking (the fill returns `some` of the fully ordered
queue contents). -/
theorem workqueue_fill_exact (paths : List Path) (numproc : Nat) :
    fillWorkQueue paths numproc
      = some (paths.map some ++ List.replicate numproc none) ∧
    (paths.map some ++ List.replicate numproc (none : Option Path)).length
      = paths.length + numproc := by
  have hlen : (paths.map some ++ List.replicate numproc (none : Option Path)).length
      = paths.length + numproc := by
    rw [List.length_append, List.length_map, List.length_replicate]
  refine ⟨?_, hlen⟩
  rw [fillWorkQueue]
  have hfit : ([] : List (Option Path)).length
      + (paths.map some ++ List.replicate numproc (none : Option Path)).length
      ≤ paths.length + numproc := by
    rw [hlen]; simp
  rw [enqueueAll_ok (paths.length + numproc) _ [] hfit, List.nil_append]

/-- Claim C8: with an empty input path sequence the program reports a
usage error and exits with the non-zero status 1; no per-file work is
performed and the transformation is invoked on no file (the outcome is the
same for every transformation `t`). -/
theorem empty_input_usage (t t' : Path → Counters) :
    main_bin_core t [] = Except.error 1 ∧ (1 : Nat) ≠ 0 ∧
    main_bin_core t [] = main_bin_core t' [] := by
  have he : ∀ s : Path → Counters, main_bin_core s [] = Except.error 1 := by
    intro s
    rw [main_bin_core, if_pos (by decide)]
  exact ⟨he t, by decide, (he t).trans (he t').symm⟩

/-- Claim C9: in serial mode a `VerifyCmpError` raised by the
transformation propagates out of the dispatch layer and terminates the run
(it is re-raised, never converted into a counter increment or a normal
completion), while a `KeyboardInterrupt` in the same position is caught
and treated as a clean stop. -/
theorem serial_verify_raises :
    serial_dispatch SerialEvent.verifyCmpError = SerialOutcome.raised ∧
    serial_dispatch SerialEvent.keyboardInterrupt = SerialOutcome.finished none ∧
    (∀ c, SerialOutcome.raised ≠ SerialOutcome.finished c) := by
  refine ⟨rfl, rfl, ?_⟩
  intro c h
  cases h

theorem suf_joinPath (a b : Path) : b <:+ joinPath a b := by
  rw [joinPath]
  by_cases h1 : b.head? = some sep
  · rw [if_pos h1]
  · rw [if_neg h1]
    by_cases h2 : a = [] ∨ a.getLast? = some sep
    · rw [if_pos h2]; exact List.suffix_append a b
    · rw [if_neg h2]
      rw [List.append_cons]
      exact List.suffix_append (a ++ [sep]) b

theorem expandOne_bytecode (fs : FileTree) (f : Path) :
    ∀ x ∈ expandOne fs f, isBytecodeName x = true := by
  intro x hx
  rw [expandOne, List.mem_flatten] at hx
  obtain ⟨l, hl, hxl⟩ := hx
  rw [List.mem_map] at hl
  obtain ⟨rd, _, rfl⟩ := hl
  rw [List.mem_map] at hxl
  obtain ⟨df, hdf, rfl⟩ := hxl
  have hb : isBytecodeName df = true := (List.mem_filter.mp hdf).2
  rw [isBytecodeName, Bool.or_eq_true] at hb ⊢
  have hsuf := suf_joinPath rd.1 df
  rcases hb with hb | hb
  · left
    rw [List.isSuffixOf_iff_suffix] at hb ⊢
    exact hb.trans hsuf
  · right
    rw [List.isSuffixOf_iff_suffix] at hb ⊢
    exact hb.trans hsuf

theorem expand_bytecode (fs : FileTree) :
    ∀ (l : List Path) (x : Path), x ∈ expand_dirs fs l → isBytecodeName x = true := by
  intro l
  induction l with
  | nil => intro x hx; cases hx
  | cons f rest ih =>
    intro x hx
    have hcons : expand_dirs fs (f :: rest)
        = (if fs.isDir f then expandOne fs f else []) ++ expand_dirs fs rest := rfl
    rw [hcons, List.mem_append] at hx
    rcases hx with hx | hx
    · by_cases hf : fs.isDir f = true
      · rw [if_pos hf] at hx; exact expandOne_bytecode fs f x hx
      · rw [if_neg hf] at hx; cases hx
    · exact ih x hx

/-- Claim C10: with `-r`, the processed path list is rebuilt exclusively
from `.pyc`/`.pyo` files found by walking the directory arguments: every
input argument that is not a directory is silently dropped (filtering the
arguments to the directories changes nothing, so a non-directory argument
contributes nothing even when it names an existing `.pyc` file — only
`isDir` is consulted), and every produced path ends in `.pyc` or `.pyo`. -/
theorem recurse_drops_nondirs (fs : FileTree) (pyc_paths : List Path) :
    expand_dirs fs pyc_paths = expand_dirs fs (pyc_paths.filter fs.isDir) ∧
    ∀ x ∈ expand_dirs fs pyc_paths, isBytecodeName x = true := by
  constructor
  · induction pyc_paths with
    | nil => rfl
    | cons f rest ih =>
      have hcons : ∀ (g : Path) (l : List Path), expand_dirs fs (g :: l)
          = (if fs.isDir g then expandOne fs g else []) ++ expand_dirs fs l :=
        fun g l => rfl
      rw [List.filter_cons]
      by_cases hf : fs.isDir f = true
      · rw [if_pos hf, hcons, hcons, ih]
      · rw [if_neg hf, hcons, if_neg hf, List.nil_append, ih]
  · intro x hx
    exact expand_bytecode fs pyc_paths x hx

end Uncompile
